import Mathlib

/-!
Shallow embedding of the `aichecker` text analyzer (src/aichecker/analyzer.py).

Strings are modeled as `List Char`; Python's regex character classes are
modeled over ASCII (`[A-Za-z]`, `\d`, `\w = [A-Za-z0-9_]`, `\s` as the six
ASCII whitespace characters).  The external libraries `textstat` and
`pyspellchecker` are not part of the repository; they enter the model as
parameters (an oracle producing textstat scores, and a dictionary model
with an unknown-word predicate and a correction function).
-/

/-- The apostrophe character (code point 39), used by the tokenizer regex. -/
def apost : Char := Char.ofNat 39

/-- Python regex `\s` over ASCII: space, tab, newline, vertical tab, form feed,
carriage return.  Also models the character class used by `str.strip()`. -/
def pyWs (c : Char) : Bool :=
  c = ' ' || c = Char.ofNat 9 || c = Char.ofNat 10 || c = Char.ofNat 11 ||
  c = Char.ofNat 12 || c = Char.ofNat 13

/-- Sentence-ending punctuation of the splitter regex: `[.!?]`. -/
def sentEnd (c : Char) : Bool := c = '.' || c = '!' || c = '?'

/-- ASCII letter, the class `[A-Za-z]` of the tokenizer regex. -/
def letterChar (c : Char) : Bool := c.isAlpha

/-- Python regex `\w` over ASCII: letters, digits, underscore. -/
def wordChar (c : Char) : Bool := c.isAlpha || c.isDigit || c = '_'

/-- Alphanumeric character (letter or digit). -/
def alnumChar (c : Char) : Bool := c.isAlpha || c.isDigit

/-- The class `[\s\W_]` of `normalize_sentence`: whitespace, non-word
character, or underscore. -/
def normClass (c : Char) : Bool := pyWs c || !wordChar c || c = '_'

/-- `s.lower()`: character-wise ASCII lowercasing. -/
def lowerL (l : List Char) : List Char := l.map Char.toLower

/-- Is the first character of the list a whitespace character? -/
def headIsWs : List Char → Bool
  | [] => false
  | c :: _ => pyWs c

/-- Is the first character of the list an ASCII letter? -/
def headIsLetter : List Char → Bool
  | [] => false
  | c :: _ => letterChar c

/-- `re.sub(p+, r, ·)` for a single-character class `p`: replace every maximal
run of characters satisfying `p` by the single character `r`.  The boolean
flag records whether the previous character was part of a run. -/
def subRunsAux (p : Char → Bool) (r : Char) : Bool → List Char → List Char
  | _, [] => []
  | inRun, c :: cs =>
    if p c then
      if inRun then subRunsAux p r true cs else r :: subRunsAux p r true cs
    else c :: subRunsAux p r false cs

/-- Replace every maximal run of characters satisfying `p` by `r`. -/
def subRuns (p : Char → Bool) (r : Char) (l : List Char) : List Char :=
  subRunsAux p r false l

/-- `str.strip()`: drop leading and trailing whitespace. -/
def stripL (l : List Char) : List Char :=
  ((l.dropWhile pyWs).reverse.dropWhile pyWs).reverse

/-- Close the accumulator of a scanner: emit the (reversed) accumulated
segment if it is nonempty.  Implements the `if s`/nonemptiness filters. -/
def tokFlush (acc : List Char) : List (List Char) :=
  if acc.isEmpty then [] else [acc.reverse]

mutual
/-- `re.split(r"(?<=[.!?])\s+", text)` scanner, in the state where `acc`
holds the (reversed) current segment.  A boundary is a sentence-ending
character immediately followed by whitespace; the boundary's whitespace run
is consumed by `splitSkipWs`.  Empty segments are dropped (the list
comprehension filter of `split_sentences`). -/
def splitAux (acc : List Char) : List Char → List (List Char)
  | [] => tokFlush acc
  | c :: cs =>
    if sentEnd c && headIsWs cs then (c :: acc).reverse :: splitSkipWs cs
    else splitAux (c :: acc) cs

/-- State of the sentence splitter just after a boundary: skip the
whitespace run, then start a new segment. -/
def splitSkipWs : List Char → List (List Char)
  | [] => []
  | c :: cs =>
    if pyWs c then splitSkipWs cs
    else if sentEnd c && headIsWs cs then [c] :: splitSkipWs cs
    else splitAux [c] cs
end

/-- `split_sentences`: strip the text; on blank text return `[]`, otherwise
split on sentence-ending punctuation followed by whitespace. -/
def split_sentences (text : List Char) : List (List Char) :=
  if (stripL text).isEmpty then [] else splitAux [] (stripL text)

/-- `re.findall(r"[A-Za-z]+(?:[-'][A-Za-z]+)*", text)` scanner.  `acc` holds
the (reversed) token being built; a hyphen or apostrophe is consumed only
between two letters. -/
def tokAux (acc : List Char) : List Char → List (List Char)
  | [] => tokFlush acc
  | c :: cs =>
    if letterChar c then tokAux (c :: acc) cs
    else if (c = '-' || c = apost) && headIsLetter acc && headIsLetter cs then
      tokAux (c :: acc) cs
    else tokFlush acc ++ tokAux [] cs

/-- `tokenize`: words made of ASCII letters with internal hyphens and
apostrophes. -/
def tokenize (text : List Char) : List (List Char) :=
  tokAux [] text

/-- Maximal runs of characters satisfying `p` (generic scanner). -/
def runsAux (p : Char → Bool) (acc : List Char) : List Char → List (List Char)
  | [] => tokFlush acc
  | c :: cs =>
    if p c then runsAux p (c :: acc) cs
    else tokFlush acc ++ runsAux p [] cs

/-- `re.findall(r"\b\w+\b", text)`: the maximal runs of word characters.
This is the tokenization used by `analyze_spelling`. -/
def wordTokens (text : List Char) : List (List Char) :=
  runsAux wordChar [] text

/-- `normalize_sentence`: lowercase, collapse every run of `[\s\W_]` to one
space, collapse whitespace runs to one space, and strip. -/
def normalize_sentence (s : List Char) : List Char :=
  stripL (subRuns pyWs ' ' (subRuns normClass ' ' (lowerL s)))

/-- Lexicographic comparison of strings by code point, Python's `str` order
(used by `sorted` and by sort keys on words). -/
def lexLe : List Char → List Char → Bool
  | [], _ => true
  | _ :: _, [] => false
  | a :: as, b :: bs =>
    if a.toNat < b.toNat then true
    else if b.toNat < a.toNat then false
    else lexLe as bs

/-- `t.isalpha()`: nonempty and all characters alphabetic. -/
def pyIsAlpha (t : List Char) : Bool := !t.isEmpty && t.all Char.isAlpha

/-- `any(c.isupper() for c in t)`. -/
def hasUpper (t : List Char) : Bool := t.any Char.isUpper

/-- `CheckerOptions` dataclass. -/
structure CheckerOptions where
  lang : List Char := "en".data
  long_sentence_threshold : Nat := 30
  max_duplicate_sentences : Nat := 1
deriving DecidableEq

/-- Model of a loaded `pyspellchecker.SpellChecker` dictionary: which words
are unknown, and the best correction (or `none`) for a word.  The library is
external to the repository, so it is a parameter of the model. -/
structure SpellModel where
  unknownP : List Char → Bool
  correction : List Char → Option (List Char)

/-- A spelling issue: an unknown word with its best suggestion. -/
structure SpellingIssue where
  word : List Char
  suggestion : Option (List Char)
deriving DecidableEq

/-- Result of `analyze_spelling`. -/
structure SpellingResult where
  total_unknown : Nat
  issues : List SpellingIssue
deriving DecidableEq

/-- The candidate words of `analyze_spelling`: the `\b\w+\b` tokens that are
purely alphabetic and contain no uppercase letter in their original form,
lowercased. -/
def spellingCandidates (text : List Char) : List (List Char) :=
  (wordTokens text).filterMap fun t =>
    if pyIsAlpha t && !hasUpper t then some (lowerL t) else none

/-- `analyze_spelling`: the distinct unknown candidate words, sorted
lexicographically, each with its correction. -/
def analyze_spelling (dict : List Char → SpellModel) (text lang : List Char) :
    SpellingResult :=
  let spell := dict lang
  let unknown := (spellingCandidates text).filter spell.unknownP |>.dedup
  let issues := (List.insertionSort (fun a b => lexLe a b) unknown).map
    fun w => ⟨w, spell.correction w⟩
  ⟨issues.length, issues⟩

/-- A long-sentence style finding. -/
structure LongSentence where
  index : Nat
  word_count : Nat
  text : List Char
deriving DecidableEq

/-- A passive-voice style finding. -/
structure PassiveHit where
  index : Nat
  matched : List Char
  sentence : List Char
deriving DecidableEq

/-- An adverb-overuse style finding. -/
structure AdverbUse where
  word : List Char
  count : Nat
deriving DecidableEq

/-- Result of `analyze_style`. -/
structure StyleResult where
  long_sentences : List LongSentence
  passive_voice : List PassiveHit
  adverbs : List AdverbUse
deriving DecidableEq

/-- The "to be" forms of the passive-voice heuristic. -/
def beVerbs : List (List Char) :=
  ["am".data, "is".data, "are".data, "was".data, "were".data, "be".data,
   "been".data, "being".data]

/-- Does this word-character run match `\w+ed` case-insensitively (a run of
length at least 3 whose lowercasing ends in "ed")? -/
def endsEd (w : List Char) : Bool :=
  match (lowerL w).reverse with
  | d :: e :: _ :: _ => d = 'd' && e = 'e'
  | _ => false

/-- Group a string into maximal runs, tagged with whether the run consists
of word characters. -/
def chunkAux (tag : Bool) (acc : List Char) : List Char → List (Bool × List Char)
  | [] => [(tag, acc.reverse)]
  | c :: cs =>
    if wordChar c = tag then chunkAux tag (c :: acc) cs
    else (tag, acc.reverse) :: chunkAux (wordChar c) [c] cs

/-- Split a string into maximal runs of word and non-word characters. -/
def chunks : List Char → List (Bool × List Char)
  | [] => []
  | c :: cs => chunkAux (wordChar c) [c] cs

/-- The matches of the passive-voice regex
`\b(?:am|is|...|being)\b\s+\b(\w+ed)\b` (IGNORECASE) in a sentence: a word
run that is a be-verb, a gap of pure whitespace, then a word run matching
`\w+ed`.  Matches can never overlap (no be-verb ends in "ed"), so scanning
every consecutive run pair is equivalent to the regex engine's left-to-right
search. -/
def passiveMatches : List (Bool × List Char) → List (List Char)
  | (true, w1) :: (false, g) :: (true, w2) :: rest =>
    (if (lowerL w1 ∈ beVerbs) && g.all pyWs && endsEd w2 then
       [w1 ++ g ++ w2] else []) ++
    passiveMatches ((true, w2) :: rest)
  | _ :: rest => passiveMatches rest
  | [] => []

/-- Association-list counter increment (`collections.Counter` keeps keys in
first-insertion order). -/
def bump (w : List Char) : List (List Char × Nat) → List (List Char × Nat)
  | [] => [(w, 1)]
  | (w', c) :: rest =>
    if w' = w then (w', c + 1) :: rest else (w', c) :: bump w rest

/-- `collections.Counter` of a word list, as an association list in
first-insertion order. -/
def counterOf (ws : List (List Char)) : List (List Char × Nat) :=
  ws.foldl (fun m w => bump w m) []

/-- The adverb exclusion list of `analyze_style`. -/
def adverbSkip : List (List Char) :=
  ["family".data, "only".data, "supply".data, "reply".data, "apply".data,
   "imply".data]

/-- `len(w) > 3 and w.endswith("ly")`. -/
def isLyWord (w : List Char) : Bool :=
  3 < w.length &&
    match w.reverse with
    | y :: l :: _ => y = 'y' && l = 'l'
    | _ => false

/-- Sort key order of the adverb findings: descending count, then ascending
word (Python `sorted` with key `(-count, word)`). -/
def advLe (a b : AdverbUse) : Prop :=
  b.count < a.count ∨ (a.count = b.count ∧ lexLe a.word b.word = true)

instance : DecidableRel advLe := fun a b => by
  unfold advLe; infer_instance

/-- `analyze_style`. -/
def analyze_style (text : List Char) (long_sentence_threshold : Nat) :
    StyleResult :=
  let sentences := split_sentences text
  let long_sentences := sentences.enum.filterMap fun p =>
    let wc := (tokenize p.2).length
    if long_sentence_threshold < wc then some ⟨p.1, wc, p.2⟩ else none
  let passive_hits := sentences.enum.flatMap fun p =>
    (passiveMatches (chunks p.2)).map fun m => (⟨p.1, m, p.2⟩ : PassiveHit)
  let words := (tokenize text).map lowerL
  let adverb_counts := counterOf (words.filter isLyWord)
  let adverbs := (adverb_counts.filterMap fun p =>
    if p.1 ∈ adverbSkip then none else some (⟨p.1, p.2⟩ : AdverbUse))
  ⟨long_sentences, passive_hits, List.insertionSort advLe adverbs⟩

/-- A duplicate-adjacent-word finding. -/
structure DupWord where
  word : List Char
  occurrences : List Nat
deriving DecidableEq

/-- A duplicate-sentence finding. -/
structure DupSentence where
  sentence : List Char
  count : Nat
deriving DecidableEq

/-- Result of `analyze_repetition`. -/
structure RepetitionResult where
  duplicate_words : List DupWord
  duplicate_sentences : List DupSentence
deriving DecidableEq

/-- `defaultdict(list)` append: record position `i` under word `w`, keeping
keys in first-insertion order. -/
def addPos (w : List Char) (i : Nat) :
    List (List Char × List Nat) → List (List Char × List Nat)
  | [] => [(w, [i])]
  | (w', ps) :: rest =>
    if w' = w then (w', ps ++ [i]) :: rest else (w', ps) :: addPos w i rest

/-- The scan of `analyze_repetition` over the word list: whenever a word
equals its predecessor, record its position. -/
def dupScan (m : List (List Char × List Nat)) (prev : Option (List Char))
    (i : Nat) : List (List Char) → List (List Char × List Nat)
  | [] => m
  | w :: rest =>
    dupScan (if prev = some w then addPos w i m else m) (some w) (i + 1) rest

/-- Sort key order of the duplicate-word findings: descending number of
occurrences, then ascending word (key `(-len(pos), word)`). -/
def dupWordLe (a b : DupWord) : Prop :=
  b.occurrences.length < a.occurrences.length ∨
    (a.occurrences.length = b.occurrences.length ∧ lexLe a.word b.word = true)

instance : DecidableRel dupWordLe := fun a b => by
  unfold dupWordLe; infer_instance

/-- The dedup-by-normalized-form loop of `analyze_repetition`, keeping the
first finding for each normalized sentence. -/
def dedupFirst (seen : List (List Char)) : List DupSentence → List DupSentence
  | [] => []
  | d :: ds =>
    let key := normalize_sentence d.sentence
    if key ∈ seen then dedupFirst seen ds
    else d :: dedupFirst (key :: seen) ds

/-- `analyze_repetition`. -/
def analyze_repetition (text : List Char) (max_duplicate_sentences : Nat) :
    RepetitionResult :=
  let words := (tokenize text).map lowerL
  let dup_words := (dupScan [] none 0 words).filterMap fun p =>
    if p.2.isEmpty then none else some (⟨p.1, p.2⟩ : DupWord)
  let sentences := split_sentences text
  let normalized := sentences.map normalize_sentence
  let cnt := fun n => (normalized.filter fun x => !x.isEmpty).count n
  let dup_sentences := (sentences.zip normalized).filterMap fun p =>
    if !p.2.isEmpty && max_duplicate_sentences < cnt p.2 then
      some (⟨p.1, cnt p.2⟩ : DupSentence)
    else none
  ⟨List.insertionSort dupWordLe dup_words, dedupFirst [] dup_sentences⟩

/-- The scores produced by a successful `textstat` run (external library,
modeled as opaque data). -/
structure TextstatScores where
  flesch_reading_ease : ℚ
  flesch_kincaid_grade : ℚ
  gunning_fog : ℚ
  smog_index : ℚ
  automated_readability_index : ℚ
  coleman_liau_index : ℚ
  dale_chall : ℚ
  difficult_words : Nat
  polysyllables : Nat
  lexicon_count : Nat
  sentence_count : Nat
deriving DecidableEq

/-- Result of `analyze_readability`: every metric optional (`None` on blank
input or textstat failure). -/
structure Readability where
  flesch_reading_ease : Option ℚ
  flesch_kincaid_grade : Option ℚ
  gunning_fog : Option ℚ
  smog_index : Option ℚ
  automated_readability_index : Option ℚ
  coleman_liau_index : Option ℚ
  dale_chall : Option ℚ
  difficult_words : Option Nat
  polysyllables : Option Nat
  lexicon_count : Nat
  sentence_count : Nat
deriving DecidableEq

/-- `analyze_readability`.  The parameter `ts` models the external
`textstat` library: `none` models an exception (the `except` branch). -/
def analyze_readability (ts : List Char → Option TextstatScores)
    (text : List Char) : Readability :=
  if (stripL text).isEmpty then
    ⟨none, none, none, none, none, none, none, some 0, some 0, 0, 0⟩
  else
    match ts text with
    | some r =>
      ⟨some r.flesch_reading_ease, some r.flesch_kincaid_grade,
       some r.gunning_fog, some r.smog_index,
       some r.automated_readability_index, some r.coleman_liau_index,
       some r.dale_chall, some r.difficult_words, some r.polysyllables,
       r.lexicon_count, r.sentence_count⟩
    | none =>
      ⟨none, none, none, none, none, none, none, none, none,
       (tokenize text).length, (split_sentences text).length⟩

/-- The summary block of the report. -/
structure Summary where
  characters : Nat
  words : Nat
  sentences : Nat
deriving DecidableEq

/-- The full analysis report of `analyze_text`. -/
structure Report where
  summary : Summary
  readability : Readability
  spelling : SpellingResult
  style : StyleResult
  repetition : RepetitionResult
  options : CheckerOptions

/-- `analyze_text`: run the four analyses and build the summary directly
from the raw text length and the segmenter outputs. -/
def analyze_text (ts : List Char → Option TextstatScores)
    (dict : List Char → SpellModel) (text : List Char)
    (options : CheckerOptions) : Report :=
  let readability := analyze_readability ts text
  let spelling := analyze_spelling dict text options.lang
  let style := analyze_style text options.long_sentence_threshold
  let repetition := analyze_repetition text options.max_duplicate_sentences
  let summary : Summary :=
    ⟨text.length, (tokenize text).length, (split_sentences text).length⟩
  ⟨summary, readability, spelling, style, repetition, options⟩

/-- Non-alphanumeric character: the effective content of the regex class
`[\s\W_]` (whitespace and `_` are themselves non-word resp. word but the
union collapses to "not a letter or digit"). -/
def notAlnum (c : Char) : Bool := !alnumChar c

mutual
/-- Canonical normalized form, scanning after an alphanumeric character (or
at the start): alphanumeric characters, single separating spaces, no
leading, trailing, or doubled space. -/
def canonAux : List Char → Bool
  | [] => true
  | c :: cs => if alnumChar c then canonAux cs else (c = ' ') && canonAfterSp cs

/-- Canonical form, scanning just after a separating space: the next
character must exist and be alphanumeric. -/
def canonAfterSp : List Char → Bool
  | [] => false
  | c :: cs => alnumChar c && canonAux cs
end

mutual
/-- Like `canonAux` but tolerating one trailing space (the shape of a raw
`subRuns notAlnum` output, before stripping). -/
def canonAuxT : List Char → Bool
  | [] => true
  | c :: cs =>
    if alnumChar c then canonAuxT cs else (c = ' ') && canonAfterSpT cs

/-- Like `canonAfterSp` but tolerating the run ending right after a space. -/
def canonAfterSpT : List Char → Bool
  | [] => true
  | c :: cs => alnumChar c && canonAuxT cs
end

/-- Fully canonical normalized form: empty, or starting with an
alphanumeric character and canonical from there on. -/
def isCanon : List Char → Bool
  | [] => true
  | c :: cs => alnumChar c && canonAux cs

/-- Shape of a list after dropping leading whitespace from a `canonAuxT`
list: empty or starting with an alphanumeric character. -/
def headCanonT : List Char → Bool
  | [] => true
  | c :: cs => alnumChar c && canonAuxT cs

/-- Right-strip: drop trailing whitespace. -/
def rstrip (z : List Char) : List Char := (z.reverse.dropWhile pyWs).reverse

/-- Association-list lookup by word key. -/
def assocFind {β : Type} (w : List Char) : List (List Char × β) → Option β
  | [] => none
  | (w', v) :: rest => if w' = w then some v else assocFind w rest

/-- The keys of an association list. -/
def keysOf {β : Type} (m : List (List Char × β)) : List (List Char) :=
  m.map Prod.fst

/-- The positions recorded for word `w` by the duplicate-word scan, written
as a direct recursion carrying the previous token and current position. -/
def dupExtra (w : List Char) : Option (List Char) → Nat → List (List Char) → List Nat
  | _, _, [] => []
  | prev, i, t :: rest =>
    (if prev = some t ∧ t = w then [i] else []) ++ dupExtra w (some t) (i + 1) rest

/-- Combine positions already recorded with newly recorded ones: a key is
present if it was present before or a new position was recorded. -/
def combinePos (o : Option (List Nat)) (ps : List Nat) : Option (List Nat) :=
  match o, ps with
  | none, [] => none
  | o, ps => some (o.getD [] ++ ps)

/-- Specification-side definition (claim C6's wording): the zero-based
positions of the later occurrences of `w` in adjacent equal pairs — pair
the token list with its tail, number the pairs from 1 (the position of the
second component), and keep the positions where a token equals its
immediate predecessor and is `w`. -/
def specDupPositions (w : List Char) (ws : List (List Char)) : List Nat :=
  ((ws.zip ws.tail).enumFrom 1).filterMap fun q =>
    if q.2.1 = q.2.2 && q.2.2 = w then some q.1 else none

/-- The normalization exactly as claim C4 words it: lowercase, replace
every maximal run of whitespace-or-non-word characters by one space
(underscores, being word characters, survive), trim. -/
def normalizeClaimC4 (s : List Char) : List Char :=
  stripL (subRuns (fun c => pyWs c || !wordChar c) ' ' (lowerL s))

/-- Modelled from the spec, amended: lowercase; replace every maximal run
of non-alphanumeric characters (underscore included, because the class
`[\s\W_]` contains it) by a single space; trim. -/
def normalizeSpecAmended (s : List Char) : List Char :=
  stripL (subRuns notAlnum ' ' (lowerL s))

/-- Specification-side single pass for duplicate sentences (claim C7,
amended): walk the sentences in order, keep the first of each normalized
class, and emit a finding when the class is nonempty and its total count
exceeds the threshold. -/
def specDupSentencesGo (cnt : List Char → Nat) (maxd : Nat)
    (seen : List (List Char)) : List (List Char) → List DupSentence
  | [] => []
  | s :: ss =>
    let n := normalize_sentence s
    if n ∈ seen then specDupSentencesGo cnt maxd seen ss
    else if !n.isEmpty && maxd < cnt n then
      ⟨s, cnt n⟩ :: specDupSentencesGo cnt maxd (n :: seen) ss
    else specDupSentencesGo cnt maxd (n :: seen) ss

/-- Specification-side duplicate-sentence findings (claim C7, amended):
count the occurrences of each nonempty normalized form across the whole
text; report, in order of first appearance and deduplicated by normalized
form, every sentence whose nonempty normalized form's count exceeds the
threshold, carrying the original text and the total count. -/
def specDupSentences (text : List Char) (maxd : Nat) : List DupSentence :=
  let sentences := split_sentences text
  let normalized := sentences.map normalize_sentence
  let cnt := fun n => (normalized.filter fun x => !x.isEmpty).count n
  specDupSentencesGo cnt maxd [] sentences

/-! ## Basic facts about the character classes and blank text -/

/-- A whitespace character is not a letter. -/
theorem pyWs_not_letterChar {c : Char} (h : pyWs c = true) :
    letterChar c = false := by
  simp only [pyWs, Bool.or_eq_true, decide_eq_true_eq] at h
  rcases h with ((((h | h) | h) | h) | h) | h <;> subst h <;> decide

/-- A whitespace character is not a word character. -/
theorem pyWs_not_wordChar {c : Char} (h : pyWs c = true) :
    wordChar c = false := by
  simp only [pyWs, Bool.or_eq_true, decide_eq_true_eq] at h
  rcases h with ((((h | h) | h) | h) | h) | h <;> subst h <;> decide

/-- `dropWhile` consumes a list all of whose elements satisfy the predicate. -/
theorem dropWhile_eq_nil_of_all {p : Char → Bool} {l : List Char}
    (h : ∀ c ∈ l, p c = true) : l.dropWhile p = [] := by
  induction l with
  | nil => rfl
  | cons c cs ih =>
    rw [List.dropWhile_cons, if_pos (h c (by simp))]
    exact ih fun d hd => h d (by simp [hd])

/-- Stripping an all-whitespace string yields the empty string. -/
theorem stripL_eq_nil_of_all_ws {l : List Char} (h : ∀ c ∈ l, pyWs c = true) :
    stripL l = [] := by
  unfold stripL
  rw [dropWhile_eq_nil_of_all h]
  simp

/-- The tokenizer produces no tokens on an all-whitespace string. -/
theorem tokenize_eq_nil_of_all_ws {l : List Char}
    (h : ∀ c ∈ l, pyWs c = true) : tokenize l = [] := by
  unfold tokenize
  induction l with
  | nil => rfl
  | cons c cs ih =>
    have hc := pyWs_not_letterChar (h c (by simp))
    simp only [tokAux, hc, headIsLetter, Bool.and_false, Bool.false_and,
      if_false, Bool.false_eq_true, tokFlush, List.isEmpty_nil, if_true,
      List.nil_append]
    exact ih fun d hd => h d (by simp [hd])

/-! ## Normalization machinery for C4 and C5 -/

/-- `\w` is "alphanumeric or underscore". -/
theorem wordChar_eq (c : Char) : wordChar c = (alnumChar c || c = '_') := by
  simp [wordChar, alnumChar, Bool.or_assoc]

/-- An alphanumeric character is not whitespace. -/
theorem alnum_not_pyWs {c : Char} (h : alnumChar c = true) : pyWs c = false := by
  cases hpw : pyWs c
  · rfl
  · have hw := pyWs_not_wordChar hpw
    rw [wordChar_eq c, h] at hw
    simp at hw

/-- An alphanumeric character is not the underscore. -/
theorem alnum_ne_underscore {c : Char} (h : alnumChar c = true) :
    decide (c = '_') = false := by
  cases hd : decide (c = '_')
  · rfl
  · have hc : c = '_' := of_decide_eq_true hd
    subst hc
    simp [alnumChar] at h

/-- The class `[\s\W_]` is exactly the non-alphanumeric characters. -/
theorem normClass_eq (c : Char) : normClass c = notAlnum c := by
  unfold normClass notAlnum
  rw [wordChar_eq]
  by_cases ha : alnumChar c = true
  · rw [ha, alnum_not_pyWs ha]
    simp [alnum_ne_underscore ha]
  · have ha' : alnumChar c = false := Bool.eq_false_iff.mpr ha
    rw [ha']
    cases hd : decide (c = '_') <;> simp [hd]

/-- `Char.toLower` is idempotent. -/
theorem toLower_idem (c : Char) :
    Char.toLower (Char.toLower c) = Char.toLower c := by
  unfold Char.toLower
  by_cases h : c.toNat ≥ 65 ∧ c.toNat ≤ 90
  · rw [if_pos h]
    have hv : (Char.ofNat (c.toNat + 32)).toNat = c.toNat + 32 := by
      have hval : (c.toNat + 32).isValidChar := Or.inl (by omega)
      rw [Char.ofNat, dif_pos hval]
      simp [Char.ofNatAux, Char.toNat, UInt32.toNat, BitVec.toNat_ofNatLt]
    rw [if_neg (by omega)]
  · rw [if_neg h, if_neg h]

/-- Recursion equation for `rstrip`. -/
theorem rstrip_cons (c : Char) (cs : List Char) :
    rstrip (c :: cs) =
      if rstrip cs = [] then (if pyWs c then [] else [c])
      else c :: rstrip cs := by
  have hiff : (rstrip cs = []) ↔ (cs.reverse.dropWhile pyWs).isEmpty = true := by
    simp [rstrip, List.isEmpty_iff]
  by_cases h : rstrip cs = []
  · rw [if_pos h]
    unfold rstrip
    rw [List.reverse_cons, List.dropWhile_append, if_pos (hiff.mp h)]
    cases hc : pyWs c
    · simp [List.dropWhile, hc]
    · simp [List.dropWhile, hc]
  · rw [if_neg h]
    unfold rstrip
    rw [List.reverse_cons, List.dropWhile_append,
      if_neg (by simpa using hiff.not.mp h)]
    simp [rstrip]

/-- On a canonical list, collapsing non-alphanumeric runs is the identity
(the flag tells whether the scanner sits just after a replaced run). -/
theorem subRuns_canon (z : List Char) :
    (canonAux z = true → subRunsAux notAlnum ' ' false z = z) ∧
    (canonAfterSp z = true → subRunsAux notAlnum ' ' true z = z) := by
  induction z with
  | nil => exact ⟨fun _ => rfl, fun h => by simp [canonAfterSp] at h⟩
  | cons c cs ih =>
    constructor
    · intro h
      rw [canonAux] at h
      by_cases hc : alnumChar c = true
      · rw [if_pos hc] at h
        have hq : notAlnum c = false := by simp [notAlnum, hc]
        simp only [subRunsAux, hq, Bool.false_eq_true, if_false]
        rw [ih.1 h]
      · rw [if_neg hc] at h
        have hq : notAlnum c = true := by
          simp [notAlnum, Bool.eq_false_iff.mpr hc]
        obtain ⟨hsp, hrest⟩ := Bool.and_eq_true_iff.mp h
        have hc' : c = ' ' := of_decide_eq_true hsp
        subst hc'
        simp only [subRunsAux, hq, if_true, Bool.false_eq_true, if_false]
        rw [ih.2 hrest]
    · intro h
      rw [canonAfterSp] at h
      obtain ⟨hc, hrest⟩ := Bool.and_eq_true_iff.mp h
      have hq : notAlnum c = false := by simp [notAlnum, hc]
      simp only [subRunsAux, hq, Bool.false_eq_true, if_false]
      rw [ih.1 hrest]

/-- The output of the collapsing pass is canonical up to a leading and a
trailing space. -/
theorem subRuns_out_canonT (m : List Char) :
    canonAuxT (subRunsAux notAlnum ' ' false m) = true ∧
    canonAfterSpT (subRunsAux notAlnum ' ' true m) = true := by
  induction m with
  | nil => exact ⟨rfl, rfl⟩
  | cons c cs ih =>
    by_cases hc : alnumChar c = true
    · have hq : notAlnum c = false := by simp [notAlnum, hc]
      constructor
      · simp only [subRunsAux, hq, Bool.false_eq_true, if_false]
        rw [canonAuxT, if_pos hc]
        exact ih.1
      · simp only [subRunsAux, hq, Bool.false_eq_true, if_false]
        rw [canonAfterSpT]
        simp [hc, ih.1]
    · have hq : notAlnum c = true := by
        simp [notAlnum, Bool.eq_false_iff.mpr hc]
      constructor
      · simp only [subRunsAux, hq, if_true, Bool.false_eq_true, if_false]
        rw [canonAuxT, if_neg (by decide)]
        simp [ih.2]
      · simp only [subRunsAux, hq, if_true]
        exact ih.2

theorem ldrop_headCanonT {z : List Char} (h : canonAuxT z = true) :
    headCanonT (z.dropWhile pyWs) = true := by
  cases z with
  | nil => rfl
  | cons c cs =>
    rw [canonAuxT] at h
    by_cases hc : alnumChar c = true
    · rw [if_pos hc] at h
      rw [List.dropWhile_cons, if_neg (by simp [alnum_not_pyWs hc])]
      rw [headCanonT]
      simp [hc, h]
    · rw [if_neg hc] at h
      obtain ⟨hsp, hrest⟩ := Bool.and_eq_true_iff.mp h
      have hc' : c = ' ' := of_decide_eq_true hsp
      subst hc'
      rw [List.dropWhile_cons, if_pos (by decide)]
      cases cs with
      | nil => rfl
      | cons d ds =>
        rw [canonAfterSpT] at hrest
        obtain ⟨hd, hds⟩ := Bool.and_eq_true_iff.mp hrest
        rw [List.dropWhile_cons, if_neg (by simp [alnum_not_pyWs hd])]
        rw [headCanonT]
        simp [hd, hds]

/-- Right-stripping a `canonAuxT` list yields a `canonAux` list. -/
theorem rstrip_canonT (z : List Char) :
    (canonAuxT z = true → canonAux (rstrip z) = true) ∧
    (canonAfterSpT z = true →
      rstrip z = [] ∨ canonAfterSp (rstrip z) = true) := by
  induction z with
  | nil => exact ⟨fun _ => rfl, fun _ => Or.inl rfl⟩
  | cons c cs ih =>
    constructor
    · intro h
      rw [canonAuxT] at h
      by_cases hc : alnumChar c = true
      · rw [if_pos hc] at h
        rw [rstrip_cons]
        by_cases hr : rstrip cs = []
        · rw [if_pos hr, if_neg (by simp [alnum_not_pyWs hc])]
          rw [canonAux, if_pos hc]
          rfl
        · rw [if_neg hr, canonAux, if_pos hc]
          exact ih.1 h
      · rw [if_neg hc] at h
        obtain ⟨hsp, hrest⟩ := Bool.and_eq_true_iff.mp h
        have hc' : c = ' ' := of_decide_eq_true hsp
        subst hc'
        rw [rstrip_cons]
        by_cases hr : rstrip cs = []
        · rw [if_pos hr, if_pos (by decide)]
          rfl
        · rw [if_neg hr]
          rcases ih.2 hrest with h0 | hgood
          · exact absurd h0 hr
          · rw [canonAux, if_neg hc]
            simp [hgood]
    · intro h
      rw [canonAfterSpT] at h
      obtain ⟨hc, hrest⟩ := Bool.and_eq_true_iff.mp h
      rw [rstrip_cons]
      by_cases hr : rstrip cs = []
      · rw [if_pos hr, if_neg (by simp [alnum_not_pyWs hc])]
        right
        rw [canonAfterSp]
        simp [hc, canonAux]
      · rw [if_neg hr]
        right
        rw [canonAfterSp]
        simp [hc, ih.1 hrest]

/-- Right-stripping a canonical list is the identity. -/
theorem rstrip_eq_self (z : List Char) :
    (canonAux z = true → rstrip z = z) ∧
    (canonAfterSp z = true → rstrip z = z ∧ z ≠ []) := by
  induction z with
  | nil => exact ⟨fun _ => rfl, fun h => by simp [canonAfterSp] at h⟩
  | cons c cs ih =>
    constructor
    · intro h
      rw [canonAux] at h
      by_cases hc : alnumChar c = true
      · rw [if_pos hc] at h
        rw [rstrip_cons, ih.1 h]
        by_cases hcs : cs = []
        · subst hcs
          rw [if_pos rfl, if_neg (by simp [alnum_not_pyWs hc])]
        · rw [if_neg hcs]
      · rw [if_neg hc] at h
        obtain ⟨hsp, hrest⟩ := Bool.and_eq_true_iff.mp h
        have hc' : c = ' ' := of_decide_eq_true hsp
        subst hc'
        obtain ⟨hstr, hne⟩ := ih.2 hrest
        rw [rstrip_cons, hstr, if_neg hne]
    · intro h
      rw [canonAfterSp] at h
      obtain ⟨hc, hrest⟩ := Bool.and_eq_true_iff.mp h
      refine ⟨?_, by simp⟩
      rw [rstrip_cons, ih.1 hrest]
      by_cases hcs : cs = []
      · subst hcs
        rw [if_pos rfl, if_neg (by simp [alnum_not_pyWs hc])]
      · rw [if_neg hcs]

/-- `stripL` is right-strip after dropping leading whitespace. -/
theorem stripL_eq_rstrip_ldrop (x : List Char) :
    stripL x = rstrip (x.dropWhile pyWs) := rfl

/-- Stripping the collapsing pass's output yields a fully canonical list. -/
theorem stripped_isCanon {x : List Char} (hx : canonAuxT x = true) :
    isCanon (stripL x) = true := by
  rw [stripL_eq_rstrip_ldrop]
  have h1 := ldrop_headCanonT hx
  cases hdl : x.dropWhile pyWs with
  | nil => rfl
  | cons d ds =>
    rw [hdl, headCanonT] at h1
    obtain ⟨hd, hds⟩ := Bool.and_eq_true_iff.mp h1
    rw [rstrip_cons]
    by_cases hr : rstrip ds = []
    · rw [if_pos hr, if_neg (by simp [alnum_not_pyWs hd])]
      rw [isCanon]
      simp [hd, canonAux]
    · rw [if_neg hr, isCanon]
      simp [hd, (rstrip_canonT ds).1 hds]

/-- A fully canonical list is `canonAux`-canonical. -/
theorem isCanon_canonAux {z : List Char} (h : isCanon z = true) :
    canonAux z = true := by
  cases z with
  | nil => rfl
  | cons c cs =>
    rw [isCanon] at h
    obtain ⟨hc, hcs⟩ := Bool.and_eq_true_iff.mp h
    rw [canonAux, if_pos hc]
    exact hcs

/-- Stripping a fully canonical list is the identity. -/
theorem stripL_of_isCanon {z : List Char} (h : isCanon z = true) :
    stripL z = z := by
  cases z with
  | nil => rfl
  | cons c cs =>
    rw [isCanon] at h
    obtain ⟨hc, _⟩ := Bool.and_eq_true_iff.mp h
    rw [stripL_eq_rstrip_ldrop, List.dropWhile_cons,
      if_neg (by simp [alnum_not_pyWs hc])]
    exact (rstrip_eq_self (c :: cs)).1 (isCanon_canonAux h)

/-- Characters of a `subRunsAux` output come from the input or are the
replacement character. -/
theorem mem_subRunsAux {c : Char} {p : Char → Bool} {r : Char} :
    ∀ {b : Bool} {m : List Char}, c ∈ subRunsAux p r b m → c = r ∨ c ∈ m := by
  intro b m
  induction m generalizing b with
  | nil => intro h; simp [subRunsAux] at h
  | cons d ds ih =>
    intro h
    rw [subRunsAux] at h
    by_cases hd : p d = true
    · rw [if_pos hd] at h
      cases b with
      | false =>
        rw [if_neg (by simp)] at h
        rcases List.mem_cons.mp h with hc | hmem
        · exact Or.inl hc
        · rcases ih hmem with h1 | h2
          · exact Or.inl h1
          · exact Or.inr (List.mem_cons_of_mem d h2)
      | true =>
        rw [if_pos rfl] at h
        rcases ih h with h1 | h2
        · exact Or.inl h1
        · exact Or.inr (List.mem_cons_of_mem d h2)
    · rw [if_neg hd] at h
      rcases List.mem_cons.mp h with hc | hmem
      · exact Or.inr (hc ▸ List.mem_cons_self d ds)
      · rcases ih hmem with h1 | h2
        · exact Or.inl h1
        · exact Or.inr (List.mem_cons_of_mem d h2)

/-- Characters survive `stripL` only from the original list. -/
theorem mem_stripL {c : Char} {x : List Char} (h : c ∈ stripL x) : c ∈ x := by
  unfold stripL at h
  have h1 := List.mem_reverse.mp h
  have h2 := (List.dropWhile_sublist pyWs).subset h1
  have h3 := List.mem_reverse.mp h2
  exact (List.dropWhile_sublist pyWs).subset h3

/-- Mapping `toLower` over a list of `toLower`-fixed characters is the
identity. -/
theorem lowerL_fix {z : List Char} (h : ∀ c ∈ z, Char.toLower c = c) :
    lowerL z = z := by
  unfold lowerL
  induction z with
  | nil => rfl
  | cons c cs ih =>
    rw [List.map_cons, h c (by simp), ih fun d hd => h d (by simp [hd])]

/-- The whitespace-collapsing second pass of `normalize_sentence` is the
identity on the output of the first pass: that output only contains single,
isolated spaces. -/
theorem subRuns_pyWs_id (m : List Char) :
    (∀ b, subRunsAux pyWs ' ' b (subRunsAux notAlnum ' ' true m) =
      subRunsAux notAlnum ' ' true m) ∧
    subRunsAux pyWs ' ' false (subRunsAux notAlnum ' ' false m) =
      subRunsAux notAlnum ' ' false m := by
  induction m with
  | nil => exact ⟨fun b => rfl, rfl⟩
  | cons c cs ih =>
    by_cases hc : alnumChar c = true
    · have hq : notAlnum c = false := by simp [notAlnum, hc]
      have hw : pyWs c = false := alnum_not_pyWs hc
      constructor
      · intro b
        simp only [subRunsAux, hq, Bool.false_eq_true, if_false, hw]
        rw [ih.2]
      · simp only [subRunsAux, hq, Bool.false_eq_true, if_false, hw]
        rw [ih.2]
    · have hq : notAlnum c = true := by
        simp [notAlnum, Bool.eq_false_iff.mpr hc]
      constructor
      · intro b
        simp only [subRunsAux, hq, if_true]
        exact ih.1 b
      · simp only [subRunsAux, hq, if_true, Bool.false_eq_true, if_false]
        have hsp : pyWs ' ' = true := by decide
        simp only [subRunsAux, hsp, if_true, Bool.false_eq_true, if_false]
        rw [ih.1 true]

/-- `normalize_sentence` equals the single-pass form: lowercase, collapse
every maximal run of non-alphanumeric characters to one space, strip. -/
theorem normalize_sentence_eq (s : List Char) :
    normalize_sentence s = stripL (subRuns notAlnum ' ' (lowerL s)) := by
  unfold normalize_sentence subRuns
  rw [show normClass = notAlnum from funext normClass_eq]
  rw [(subRuns_pyWs_id (lowerL s)).2]

/-- Every character of the normalized output is fixed by `toLower`. -/
theorem norm_chars_fixed (s : List Char) :
    ∀ c ∈ stripL (subRuns notAlnum ' ' (lowerL s)), Char.toLower c = c := by
  intro c hc
  rcases mem_subRunsAux (mem_stripL hc) with hr | hm
  · subst hr; decide
  · rcases List.mem_map.mp hm with ⟨a, _, ha⟩
    rw [← ha]
    exact toLower_idem a

/-! ## Claims about the aggregator (C2, C10) and blank input (C3) -/

/-- Claim C2: for every input text and configuration, the report's summary
satisfies `summary.words = len(tokenize(text))` and
`summary.sentences = len(split_sentences(text))`: the summary is built from
the segmenter and tokenizer outputs, not from the readability engine's
counts (which are a separate field of the report). -/
theorem claim_C2 (ts : List Char → Option TextstatScores)
    (dict : List Char → SpellModel) (text : List Char)
    (opts : CheckerOptions) :
    (analyze_text ts dict text opts).summary.words = (tokenize text).length ∧
    (analyze_text ts dict text opts).summary.sentences =
      (split_sentences text).length :=
  ⟨rfl, rfl⟩

/-- Claim C10: for every input text and configuration, the report's
`summary.characters` equals the length of the raw, untrimmed input string,
even when the text produces zero tokens and zero sentences. -/
theorem claim_C10 (ts : List Char → Option TextstatScores)
    (dict : List Char → SpellModel) (text : List Char)
    (opts : CheckerOptions) :
    (analyze_text ts dict text opts).summary.characters = text.length :=
  rfl

/-- Claim C3: on empty or all-whitespace text, `split_sentences` and
`tokenize` return the empty sequence and `analyze_readability` returns every
readability metric absent (it returns the fixed blank record, whatever the
textstat oracle would do). -/
theorem claim_C3 (ts : List Char → Option TextstatScores) (text : List Char)
    (h : ∀ c ∈ text, pyWs c = true) :
    split_sentences text = [] ∧ tokenize text = [] ∧
    analyze_readability ts text =
      ⟨none, none, none, none, none, none, none, some 0, some 0, 0, 0⟩ := by
  have hs : stripL text = [] := stripL_eq_nil_of_all_ws h
  refine ⟨?_, tokenize_eq_nil_of_all_ws h, ?_⟩
  · unfold split_sentences
    rw [hs]
    rfl
  · unfold analyze_readability
    rw [hs]
    rfl

/-- Witness for C3 at the concrete one-space input. -/
theorem claim_C3_witness :
    split_sentences (" ".data) = [] ∧ tokenize (" ".data) = [] ∧
    analyze_readability (fun _ => none) (" ".data) =
      ⟨none, none, none, none, none, none, none, some 0, some 0, 0, 0⟩ :=
  claim_C3 (fun _ => none) (" ".data) (by decide)

/-! ## Claims C4 and C5: normalize_sentence -/

/-- Counterexample to claim C4 as stated: underscores are word characters,
yet `normalize_sentence` replaces them by spaces, because the regex class
`[\s\W_]` explicitly includes the underscore.  On "a_b" the code yields
"a b" while the claimed specification preserves the underscore. -/
theorem claim_C4_counterexample :
    normalize_sentence ("a_b".data) = "a b".data ∧
    normalizeClaimC4 ("a_b".data) = "a_b".data ∧
    normalize_sentence ("a_b".data) ≠ normalizeClaimC4 ("a_b".data) := by
  decide

/-- Claim C4, amended: `normalize_sentence s` equals lowercasing `s`,
replacing every maximal run of non-alphanumeric characters (underscore
included) with a single space, and trimming — a single collapsing pass. -/
theorem claim_C4_amended (s : List Char) :
    normalize_sentence s = normalizeSpecAmended s :=
  normalize_sentence_eq s

/-- Claim C5: `normalize_sentence` is idempotent. -/
theorem claim_C5 (s : List Char) :
    normalize_sentence (normalize_sentence s) = normalize_sentence s := by
  rw [normalize_sentence_eq s, normalize_sentence_eq]
  have hT : canonAuxT (subRuns notAlnum ' ' (lowerL s)) = true :=
    (subRuns_out_canonT (lowerL s)).1
  have hcan : isCanon (stripL (subRuns notAlnum ' ' (lowerL s))) = true :=
    stripped_isCanon hT
  rw [lowerL_fix (norm_chars_fixed s)]
  have hsub : subRuns notAlnum ' ' (stripL (subRuns notAlnum ' ' (lowerL s))) =
      stripL (subRuns notAlnum ' ' (lowerL s)) :=
    (subRuns_canon _).1 (isCanon_canonAux hcan)
  rw [hsub]
  exact stripL_of_isCanon hcan

/-! ## Duplicate-word machinery for C6 -/

/-- Looking up the bumped key after `addPos` appends the new position. -/
theorem assocFind_addPos_self (w : List Char) (i : Nat)
    (m : List (List Char × List Nat)) :
    assocFind w (addPos w i m) = some ((assocFind w m).getD [] ++ [i]) := by
  induction m with
  | nil => simp [addPos, assocFind]
  | cons p rest ih =>
    obtain ⟨w', v⟩ := p
    by_cases h : w' = w
    · subst h
      simp [addPos, assocFind]
    · simp [addPos, assocFind, h, ih]

/-- `addPos` leaves other keys unchanged. -/
theorem assocFind_addPos_ne {v w : List Char} (h : v ≠ w) (i : Nat)
    (m : List (List Char × List Nat)) :
    assocFind v (addPos w i m) = assocFind v m := by
  induction m with
  | nil => simp [addPos, assocFind, Ne.symm h]
  | cons p rest ih =>
    obtain ⟨w', u⟩ := p
    by_cases hw : w' = w
    · subst hw
      simp [addPos, assocFind, Ne.symm h]
    · simp [addPos, assocFind, hw, ih]

/-- The duplicate-word scan records, under each key, exactly the positions
`dupExtra` computes, appended to whatever the accumulator already held. -/
theorem dupScan_assocFind (rest : List (List Char)) :
    ∀ (m : List (List Char × List Nat)) (prev : Option (List Char)) (i : Nat)
      (w : List Char),
      assocFind w (dupScan m prev i rest) =
        combinePos (assocFind w m) (dupExtra w prev i rest) := by
  induction rest with
  | nil =>
    intro m prev i w
    rw [dupScan, dupExtra]
    cases assocFind w m <;> simp [combinePos]
  | cons t rest' ih =>
    intro m prev i w
    rw [dupScan, dupExtra]
    by_cases hp : prev = some t
    · rw [if_pos hp]
      by_cases ht : t = w
      · subst ht
        rw [if_pos ⟨hp, rfl⟩, ih]
        rw [assocFind_addPos_self]
        cases hfm : assocFind t m <;> simp [combinePos]
      · rw [if_neg (fun hc : prev = some t ∧ t = w => ht hc.2), ih,
          assocFind_addPos_ne (fun hc : w = t => ht hc.symm)]
        rw [List.nil_append]
    · rw [if_neg hp, if_neg (fun hc : prev = some t ∧ t = w => hp hc.1), ih]
      rw [List.nil_append]

/-- `dupExtra` started after a previous token matches the zip-with-tail
specification, with pair numbering from the position of the first token of
`rest`. -/
theorem dupExtra_eq_spec_aux (w : List Char) (rest : List (List Char)) :
    ∀ (p : List Char) (i : Nat),
      dupExtra w (some p) i rest =
        (((p :: rest).zip rest).enumFrom i).filterMap fun q =>
          if q.2.1 = q.2.2 && q.2.2 = w then some q.1 else none := by
  induction rest with
  | nil => intro p i; rfl
  | cons t rest' ih =>
    intro p i
    rw [dupExtra]
    have hzip : (p :: t :: rest').zip (t :: rest') =
        (p, t) :: ((t :: rest').zip rest') := rfl
    rw [hzip]
    by_cases hpt : p = t
    · subst hpt
      by_cases htw : p = w
      · subst htw
        simp [List.filterMap_cons, ih]
      · simp [List.filterMap_cons, ih, htw]
    · simp [List.filterMap_cons, ih, hpt]

/-- The scan's recorded positions, from the start, are exactly the
specification's adjacent-duplicate positions. -/
theorem dupExtra_eq_spec (w : List Char) (ws : List (List Char)) :
    dupExtra w none 0 ws = specDupPositions w ws := by
  cases ws with
  | nil => rfl
  | cons t rest =>
    rw [specDupPositions]
    have htail : (t :: rest).tail = rest := rfl
    rw [htail, dupExtra]
    rw [if_neg (fun hc : (none : Option (List Char)) = some t ∧ t = w =>
      Option.noConfusion hc.1)]
    rw [List.nil_append, dupExtra_eq_spec_aux]

/-- `addPos` keeps existing keys and appends a fresh key at the end. -/
theorem keysOf_addPos (w : List Char) (i : Nat)
    (m : List (List Char × List Nat)) :
    keysOf (addPos w i m) =
      if w ∈ keysOf m then keysOf m else keysOf m ++ [w] := by
  induction m with
  | nil => simp [addPos, keysOf]
  | cons p rest ih =>
    obtain ⟨w', v⟩ := p
    by_cases h : w' = w
    · subst h
      simp [addPos, keysOf]
    · have hmem : (w ∈ keysOf ((w', v) :: rest)) ↔ (w ∈ keysOf rest) := by
        simp [keysOf, Ne.symm h]
      rw [addPos, if_neg h]
      by_cases hm : w ∈ keysOf rest
      · rw [if_pos (hmem.mpr hm)]
        have hk : keysOf (addPos w i rest) = keysOf rest := by
          rw [ih, if_pos hm]
        show w' :: keysOf (addPos w i rest) = keysOf ((w', v) :: rest)
        rw [hk]
        rfl
      · rw [if_neg (fun hc => hm (hmem.mp hc))]
        have hk : keysOf (addPos w i rest) = keysOf rest ++ [w] := by
          rw [ih, if_neg hm]
        show w' :: keysOf (addPos w i rest) = keysOf ((w', v) :: rest) ++ [w]
        rw [hk]
        rfl

/-- `addPos` preserves distinctness of keys. -/
theorem nodup_keys_addPos {m : List (List Char × List Nat)}
    (h : (keysOf m).Nodup) (w : List Char) (i : Nat) :
    (keysOf (addPos w i m)).Nodup := by
  rw [keysOf_addPos]
  by_cases hm : w ∈ keysOf m
  · rw [if_pos hm]; exact h
  · rw [if_neg hm]
    rw [List.nodup_append]
    exact ⟨h, List.nodup_singleton w, by
      intro a ha hb
      rw [List.mem_singleton] at hb
      subst hb
      exact hm ha⟩

/-- The duplicate-word scan preserves distinctness of keys. -/
theorem nodup_keys_dupScan (rest : List (List Char)) :
    ∀ (m : List (List Char × List Nat)) (prev : Option (List Char)) (i : Nat),
      (keysOf m).Nodup → (keysOf (dupScan m prev i rest)).Nodup := by
  induction rest with
  | nil => intro m prev i h; exact h
  | cons t rest' ih =>
    intro m prev i h
    rw [dupScan]
    apply ih
    by_cases hp : prev = some t
    · rw [if_pos hp]
      exact nodup_keys_addPos h t i
    · rw [if_neg hp]
      exact h

/-- In an association list with distinct keys, membership of a pair is
lookup of its key. -/
theorem assocFind_mem_iff {β : Type} {m : List (List Char × β)}
    (h : (keysOf m).Nodup) (w : List Char) (v : β) :
    (w, v) ∈ m ↔ assocFind w m = some v := by
  induction m with
  | nil => simp [assocFind]
  | cons p rest ih =>
    obtain ⟨w', v'⟩ := p
    rw [keysOf] at h
    rw [List.map_cons, List.nodup_cons] at h
    obtain ⟨hnotin, hrest⟩ := h
    by_cases hw : w' = w
    · subst hw
      rw [assocFind, if_pos rfl]
      constructor
      · intro hmem
        rcases List.mem_cons.mp hmem with heq | hmem'
        · rw [(Prod.mk.injEq _ _ _ _).mp heq |>.2]
        · exact absurd (List.mem_map_of_mem Prod.fst hmem') hnotin
      · intro hv
        rw [Option.some_inj] at hv
        subst hv
        exact List.mem_cons_self _ _
    · rw [assocFind, if_neg hw]
      rw [← ih hrest]
      constructor
      · intro hmem
        rcases List.mem_cons.mp hmem with heq | hmem'
        · exact absurd ((Prod.mk.injEq _ _ _ _).mp heq).1.symm hw
        · exact hmem'
      · intro hmem
        exact List.mem_cons_of_mem _ hmem

/-! ## Totality and transitivity of the sort orders -/

/-- `lexLe` is total. -/
theorem lexLe_total (a b : List Char) : lexLe a b = true ∨ lexLe b a = true := by
  induction a generalizing b with
  | nil => left; rfl
  | cons x xs ih =>
    cases b with
    | nil => right; rfl
    | cons y ys =>
      rcases Nat.lt_trichotomy x.toNat y.toNat with h | h | h
      · left; simp [lexLe, h]
      · rcases ih ys with h1 | h1
        · left; simp [lexLe, h, h1]
        · right; simp [lexLe, h, h1]
      · right; simp [lexLe, h]

/-- `lexLe` is transitive. -/
theorem lexLe_trans {a b c : List Char} (hab : lexLe a b = true)
    (hbc : lexLe b c = true) : lexLe a c = true := by
  induction a generalizing b c with
  | nil => rfl
  | cons x xs ih =>
    cases b with
    | nil => simp [lexLe] at hab
    | cons y ys =>
      cases c with
      | nil => simp [lexLe] at hbc
      | cons z zs =>
        rw [lexLe] at hab hbc ⊢
        rcases Nat.lt_trichotomy x.toNat y.toNat with h1 | h1 | h1
        · rcases Nat.lt_trichotomy y.toNat z.toNat with h2 | h2 | h2
          · rw [if_pos (lt_trans h1 h2)]
          · rw [if_pos (show x.toNat < z.toNat by omega)]
          · rw [if_neg (by omega), if_pos h2] at hbc
            exact absurd hbc Bool.false_ne_true
        · rw [if_neg (by omega), if_neg (by omega)] at hab
          rcases Nat.lt_trichotomy y.toNat z.toNat with h2 | h2 | h2
          · rw [if_pos (show x.toNat < z.toNat by omega)]
          · rw [if_neg (by omega), if_neg (by omega)] at hbc
            rw [if_neg (by omega), if_neg (by omega)]
            exact ih hab hbc
          · rw [if_neg (by omega), if_pos h2] at hbc
            exact absurd hbc Bool.false_ne_true
        · rw [if_neg (by omega), if_pos h1] at hab
          exact absurd hab Bool.false_ne_true

/-- The duplicate-word sort key order is total. -/
theorem dupWordLe_total (a b : DupWord) : dupWordLe a b ∨ dupWordLe b a := by
  rcases Nat.lt_trichotomy a.occurrences.length b.occurrences.length
    with h | h | h
  · right; exact Or.inl h
  · rcases lexLe_total a.word b.word with h1 | h1
    · left; exact Or.inr ⟨h, h1⟩
    · right; exact Or.inr ⟨h.symm, h1⟩
  · left; exact Or.inl h

/-- The duplicate-word sort key order is transitive. -/
theorem dupWordLe_trans {a b c : DupWord} (h1 : dupWordLe a b)
    (h2 : dupWordLe b c) : dupWordLe a c := by
  rcases h1 with h1 | ⟨h1e, h1w⟩ <;> rcases h2 with h2 | ⟨h2e, h2w⟩
  · exact Or.inl (lt_trans h2 h1)
  · exact Or.inl (by omega)
  · exact Or.inl (by omega)
  · exact Or.inr ⟨h1e.trans h2e, lexLe_trans h1w h2w⟩

/-- The adverb sort key order is total. -/
theorem advLe_total (a b : AdverbUse) : advLe a b ∨ advLe b a := by
  rcases Nat.lt_trichotomy a.count b.count with h | h | h
  · right; exact Or.inl h
  · rcases lexLe_total a.word b.word with h1 | h1
    · left; exact Or.inr ⟨h, h1⟩
    · right; exact Or.inr ⟨h.symm, h1⟩
  · left; exact Or.inl h

/-- The adverb sort key order is transitive. -/
theorem advLe_trans {a b c : AdverbUse} (h1 : advLe a b) (h2 : advLe b c) :
    advLe a c := by
  rcases h1 with h1 | ⟨h1e, h1w⟩ <;> rcases h2 with h2 | ⟨h2e, h2w⟩
  · exact Or.inl (lt_trans h2 h1)
  · exact Or.inl (by omega)
  · exact Or.inl (by omega)
  · exact Or.inr ⟨h1e.trans h2e, lexLe_trans h1w h2w⟩

/-- Membership characterization of the duplicate-word findings: exactly the
words with a nonempty list of adjacent-duplicate positions, carrying those
positions. -/
theorem dupWords_mem (text : List Char) (mds : Nat) (w : List Char)
    (ps : List Nat) :
    ((⟨w, ps⟩ : DupWord) ∈ (analyze_repetition text mds).duplicate_words) ↔
      (ps = specDupPositions w ((tokenize text).map lowerL) ∧ ps ≠ []) := by
  set ws := (tokenize text).map lowerL with hws
  have hdw : (analyze_repetition text mds).duplicate_words =
      List.insertionSort dupWordLe ((dupScan [] none 0 ws).filterMap fun p =>
        if p.2.isEmpty then none else some (⟨p.1, p.2⟩ : DupWord)) := rfl
  rw [hdw, (List.perm_insertionSort dupWordLe _).mem_iff, List.mem_filterMap]
  have hnodup : (keysOf (dupScan [] none 0 ws)).Nodup :=
    nodup_keys_dupScan ws [] none 0 (by simp [keysOf])
  have hlook : assocFind w (dupScan [] none 0 ws) =
      combinePos none (specDupPositions w ws) := by
    rw [dupScan_assocFind, dupExtra_eq_spec]
    rfl
  constructor
  · rintro ⟨a, hmem, hfa⟩
    obtain ⟨aw, aps⟩ := a
    by_cases hemp : aps.isEmpty
    · rw [if_pos hemp] at hfa
      exact absurd hfa (by simp)
    · rw [if_neg hemp, Option.some_inj, DupWord.mk.injEq] at hfa
      obtain ⟨h1, h2⟩ := hfa
      have h1' : aw = w := h1
      have h2' : aps = ps := h2
      rw [h1', h2'] at hmem
      have hfind : assocFind w (dupScan [] none 0 ws) = some ps :=
        (assocFind_mem_iff hnodup w ps).mp hmem
      rw [hlook] at hfind
      cases hspec : specDupPositions w ws with
      | nil =>
        rw [hspec] at hfind
        simp [combinePos] at hfind
      | cons q qs =>
        rw [hspec] at hfind
        simp only [combinePos, Option.getD_none, List.nil_append,
          Option.some_inj] at hfind
        exact ⟨hfind.symm, by rw [← hfind]; simp⟩
  · rintro ⟨hps, hne⟩
    refine ⟨(w, ps), ?_, ?_⟩
    · apply (assocFind_mem_iff hnodup w ps).mpr
      rw [hlook, hps]
      cases hspec : specDupPositions w ws with
      | nil => exact absurd (hps.trans hspec) hne
      | cons q qs => simp [combinePos]
    · have : ps.isEmpty = false := by
        cases ps
        · exact absurd rfl hne
        · rfl
      rw [this]
      rfl

/-- The duplicate-word findings are sorted by descending occurrence count,
then ascending word. -/
theorem dupWords_sorted (text : List Char) (mds : Nat) :
    List.Sorted dupWordLe (analyze_repetition text mds).duplicate_words := by
  have h : (analyze_repetition text mds).duplicate_words =
      List.insertionSort dupWordLe
        ((dupScan [] none 0 ((tokenize text).map lowerL)).filterMap fun p =>
          if p.2.isEmpty then none else some (⟨p.1, p.2⟩ : DupWord)) := rfl
  rw [h]
  exact @List.sorted_insertionSort DupWord dupWordLe _ ⟨dupWordLe_total⟩
    ⟨fun a b c h1 h2 => dupWordLe_trans h1 h2⟩ _

/-- Claim C6: the duplicate-word findings are exactly the case-folded
tokens equal to their immediate predecessor, carrying the zero-based
positions of the later occurrences, sorted by descending occurrence count
then ascending word; on "the the cat sat sat." this yields "the" at
position 1 and "sat" at position 4 (listed sat-first by the tie-break). -/
theorem claim_C6 (text : List Char) (mds : Nat) :
    (∀ w ps,
      ((⟨w, ps⟩ : DupWord) ∈ (analyze_repetition text mds).duplicate_words) ↔
        (ps = specDupPositions w ((tokenize text).map lowerL) ∧ ps ≠ [])) ∧
    List.Sorted dupWordLe (analyze_repetition text mds).duplicate_words ∧
    (analyze_repetition ("the the cat sat sat.".data) mds).duplicate_words =
      [⟨"sat".data, [4]⟩, ⟨"the".data, [1]⟩] :=
  ⟨fun w ps => dupWords_mem text mds w ps, dupWords_sorted text mds, rfl⟩

/-! ## Counter machinery for C9 -/

/-- Bumping a key increments its count (missing keys start at 0). -/
theorem assocFind_bump_self (w : List Char) (m : List (List Char × Nat)) :
    assocFind w (bump w m) = some ((assocFind w m).getD 0 + 1) := by
  induction m with
  | nil => simp [bump, assocFind]
  | cons p rest ih =>
    obtain ⟨w', c⟩ := p
    by_cases h : w' = w
    · subst h
      simp [bump, assocFind]
    · simp [bump, assocFind, h, ih]

/-- Bumping a key leaves other keys unchanged. -/
theorem assocFind_bump_ne {v w : List Char} (h : v ≠ w)
    (m : List (List Char × Nat)) :
    assocFind v (bump w m) = assocFind v m := by
  induction m with
  | nil => simp [bump, assocFind, Ne.symm h]
  | cons p rest ih =>
    obtain ⟨w', c⟩ := p
    by_cases hw : w' = w
    · subst hw
      simp [bump, assocFind, Ne.symm h]
    · simp [bump, assocFind, hw, ih]

/-- `bump` keeps existing keys and appends a fresh key at the end. -/
theorem keysOf_bump (w : List Char) (m : List (List Char × Nat)) :
    keysOf (bump w m) =
      if w ∈ keysOf m then keysOf m else keysOf m ++ [w] := by
  induction m with
  | nil => simp [bump, keysOf]
  | cons p rest ih =>
    obtain ⟨w', c⟩ := p
    by_cases h : w' = w
    · subst h
      simp [bump, keysOf]
    · have hmem : (w ∈ keysOf ((w', c) :: rest)) ↔ (w ∈ keysOf rest) := by
        simp [keysOf, Ne.symm h]
      rw [bump, if_neg h]
      by_cases hm : w ∈ keysOf rest
      · rw [if_pos (hmem.mpr hm)]
        have hk : keysOf (bump w rest) = keysOf rest := by rw [ih, if_pos hm]
        show w' :: keysOf (bump w rest) = keysOf ((w', c) :: rest)
        rw [hk]
        rfl
      · rw [if_neg (fun hc => hm (hmem.mp hc))]
        have hk : keysOf (bump w rest) = keysOf rest ++ [w] := by
          rw [ih, if_neg hm]
        show w' :: keysOf (bump w rest) = keysOf ((w', c) :: rest) ++ [w]
        rw [hk]
        rfl

/-- `bump` preserves distinctness of keys. -/
theorem nodup_keys_bump {m : List (List Char × Nat)}
    (h : (keysOf m).Nodup) (w : List Char) : (keysOf (bump w m)).Nodup := by
  rw [keysOf_bump]
  by_cases hm : w ∈ keysOf m
  · rw [if_pos hm]; exact h
  · rw [if_neg hm]
    rw [List.nodup_append]
    exact ⟨h, List.nodup_singleton w, by
      intro a ha hb
      rw [List.mem_singleton] at hb
      subst hb
      exact hm ha⟩

/-- Combine a prior count with newly counted occurrences. -/
def combineCount (o : Option Nat) (n : Nat) : Option Nat :=
  match o, n with
  | none, 0 => none
  | o, n => some (o.getD 0 + n)

/-- The counter fold records under each key the number of occurrences. -/
theorem counterFold_assocFind (ws : List (List Char)) :
    ∀ (m : List (List Char × Nat)) (w : List Char),
      assocFind w (ws.foldl (fun m w => bump w m) m) =
        combineCount (assocFind w m) (ws.count w) := by
  induction ws with
  | nil =>
    intro m w
    rw [List.foldl_nil, List.count_nil]
    cases assocFind w m <;> simp [combineCount]
  | cons t ws' ih =>
    intro m w
    rw [List.foldl_cons, ih]
    by_cases h : t = w
    · subst h
      rw [assocFind_bump_self]
      have hc : (t :: ws').count t = ws'.count t + 1 := by
        rw [List.count_cons]
        simp
      rw [hc]
      cases hfm : assocFind t m <;> simp [combineCount] <;> omega
    · rw [assocFind_bump_ne (fun hc : w = t => h hc.symm)]
      have hc : (t :: ws').count w = ws'.count w := by
        rw [List.count_cons]
        simp [h]
      rw [hc]

/-- The counter fold preserves distinctness of keys. -/
theorem nodup_keys_counterFold (ws : List (List Char)) :
    ∀ (m : List (List Char × Nat)), (keysOf m).Nodup →
      (keysOf (ws.foldl (fun m w => bump w m) m)).Nodup := by
  induction ws with
  | nil => intro m h; exact h
  | cons t ws' ih =>
    intro m h
    rw [List.foldl_cons]
    exact ih _ (nodup_keys_bump h t)

/-- Membership in the counter: exactly the occurring words with their
occurrence counts. -/
theorem counterOf_mem (ws : List (List Char)) (w : List Char) (c : Nat) :
    ((w, c) ∈ counterOf ws) ↔ (w ∈ ws ∧ c = ws.count w) := by
  have hnodup : (keysOf (counterOf ws)).Nodup :=
    nodup_keys_counterFold ws [] (by simp [keysOf])
  rw [assocFind_mem_iff hnodup]
  show assocFind w (ws.foldl (fun m w => bump w m) []) = some c ↔ _
  rw [counterFold_assocFind]
  show combineCount none (ws.count w) = some c ↔ _
  cases hcnt : ws.count w with
  | zero =>
    simp only [combineCount]
    constructor
    · intro h
      exact absurd h (by simp)
    · rintro ⟨hmem, _⟩
      have := List.count_pos_iff.mpr hmem
      omega
  | succ n =>
    simp only [combineCount, Option.getD_none, Nat.zero_add, Option.some_inj]
    constructor
    · intro h
      refine ⟨List.count_pos_iff.mp (by omega), h.symm⟩
    · rintro ⟨_, hc⟩
      exact hc.symm

/-- Membership characterization of the adverb findings: exactly the
lowercased tokens that are long "-ly" words outside the exclusion list,
with their total occurrence count over the whole text. -/
theorem advWords_mem (text : List Char) (thr : Nat) (w : List Char) (c : Nat) :
    ((⟨w, c⟩ : AdverbUse) ∈ (analyze_style text thr).adverbs) ↔
      (w ∈ (tokenize text).map lowerL ∧ isLyWord w = true ∧
        w ∉ adverbSkip ∧ c = ((tokenize text).map lowerL).count w) := by
  have hdv : (analyze_style text thr).adverbs =
      List.insertionSort advLe
        ((counterOf (((tokenize text).map lowerL).filter isLyWord)).filterMap
          fun p => if p.1 ∈ adverbSkip then none else
            some (⟨p.1, p.2⟩ : AdverbUse)) := rfl
  rw [hdv, (List.perm_insertionSort advLe _).mem_iff, List.mem_filterMap]
  constructor
  · rintro ⟨a, hmem, hfa⟩
    obtain ⟨aw, ac⟩ := a
    by_cases hskip : aw ∈ adverbSkip
    · rw [if_pos hskip] at hfa
      exact absurd hfa (by simp)
    · rw [if_neg hskip, Option.some_inj, AdverbUse.mk.injEq] at hfa
      obtain ⟨h1, h2⟩ := hfa
      have h1' : aw = w := h1
      have h2' : ac = c := h2
      rw [h1'] at hskip
      rw [h1', h2'] at hmem
      obtain ⟨hmemf, hc⟩ := (counterOf_mem _ w c).mp hmem
      rw [List.mem_filter] at hmemf
      obtain ⟨hmw, hly⟩ := hmemf
      refine ⟨hmw, hly, hskip, ?_⟩
      rw [hc, List.count_filter hly]
  · rintro ⟨hmw, hly, hskip, hc⟩
    refine ⟨(w, c), ?_, ?_⟩
    · apply (counterOf_mem _ w c).mpr
      exact ⟨List.mem_filter.mpr ⟨hmw, hly⟩, by rw [hc, List.count_filter hly]⟩
    · rw [if_neg hskip]

/-- The adverb findings are sorted by descending count then ascending
word. -/
theorem advWords_sorted (text : List Char) (thr : Nat) :
    List.Sorted advLe (analyze_style text thr).adverbs := by
  have hdv : (analyze_style text thr).adverbs =
      List.insertionSort advLe
        ((counterOf (((tokenize text).map lowerL).filter isLyWord)).filterMap
          fun p => if p.1 ∈ adverbSkip then none else
            some (⟨p.1, p.2⟩ : AdverbUse)) := rfl
  rw [hdv]
  exact @List.sorted_insertionSort AdverbUse advLe _ ⟨advLe_total⟩
    ⟨fun a b c h1 h2 => advLe_trans h1 h2⟩ _

/-- Claim C9: the adverb findings are exactly the lowercased tokens longer
than 3 characters ending in "ly" outside the exclusion set
{family, only, supply, reply, apply, imply}, each with its total occurrence
count, sorted by descending count then ascending word; "quickly" counts and
"family"/"only" never appear. -/
theorem claim_C9 (text : List Char) (thr : Nat) :
    (∀ w c, ((⟨w, c⟩ : AdverbUse) ∈ (analyze_style text thr).adverbs) ↔
      (w ∈ (tokenize text).map lowerL ∧ isLyWord w = true ∧
        w ∉ adverbSkip ∧ c = ((tokenize text).map lowerL).count w)) ∧
    List.Sorted advLe (analyze_style text thr).adverbs ∧
    (∀ c, (⟨"family".data, c⟩ : AdverbUse) ∉ (analyze_style text thr).adverbs ∧
      (⟨"only".data, c⟩ : AdverbUse) ∉ (analyze_style text thr).adverbs) ∧
    (analyze_style ("He ran quickly. The family left.".data) thr).adverbs =
      [⟨"quickly".data, 1⟩] := by
  refine ⟨fun w c => advWords_mem text thr w c, advWords_sorted text thr,
    fun c => ⟨?_, ?_⟩, rfl⟩
  · intro hmem
    obtain ⟨_, _, hskip, _⟩ := (advWords_mem text thr _ c).mp hmem
    exact hskip (by simp [adverbSkip])
  · intro hmem
    obtain ⟨_, _, hskip, _⟩ := (advWords_mem text thr _ c).mp hmem
    exact hskip (by simp [adverbSkip])

/-! ## Claim C8: spelling issues -/

/-- Claim C8: the spelling issues are exactly one entry per distinct
unknown word among the candidate tokens (a `\b\w+\b` token that is purely
alphabetic with no uppercase letter in its original form, lowercased),
sorted lexicographically by word, each carrying its correction. -/
theorem claim_C8 (dict : List Char → SpellModel) (text lang : List Char) :
    (∀ w, (w ∈ (analyze_spelling dict text lang).issues.map
        SpellingIssue.word) ↔
      (w ∈ spellingCandidates text ∧ (dict lang).unknownP w = true)) ∧
    ((analyze_spelling dict text lang).issues.map SpellingIssue.word).Nodup ∧
    List.Sorted (fun a b => lexLe a b = true)
      ((analyze_spelling dict text lang).issues.map SpellingIssue.word) ∧
    (∀ iss ∈ (analyze_spelling dict text lang).issues,
      iss.suggestion = (dict lang).correction iss.word) ∧
    (∀ t, (t ∈ spellingCandidates text) ↔ ∃ u ∈ wordTokens text,
      pyIsAlpha u = true ∧ hasUpper u = false ∧ t = lowerL u) ∧
    (analyze_spelling dict text lang).total_unknown =
      (analyze_spelling dict text lang).issues.length := by
  have hissues : (analyze_spelling dict text lang).issues =
      (List.insertionSort (fun a b => lexLe a b = true)
        (((spellingCandidates text).filter (dict lang).unknownP).dedup)).map
        fun w => ⟨w, (dict lang).correction w⟩ := rfl
  have hwords : (analyze_spelling dict text lang).issues.map
      SpellingIssue.word =
      List.insertionSort (fun a b => lexLe a b = true)
        (((spellingCandidates text).filter (dict lang).unknownP).dedup) := by
    rw [hissues, List.map_map]
    exact List.map_id _
  refine ⟨?_, ?_, ?_, ?_, ?_, rfl⟩
  · intro w
    rw [hwords,
      (List.perm_insertionSort (fun a b => lexLe a b = true) _).mem_iff,
      List.mem_dedup, List.mem_filter]
  · rw [hwords]
    exact ((List.perm_insertionSort _ _).nodup_iff).mpr (List.nodup_dedup _)
  · rw [hwords]
    exact @List.sorted_insertionSort (List Char)
      (fun a b => lexLe a b = true) _ ⟨lexLe_total⟩
      ⟨fun a b c h1 h2 => lexLe_trans h1 h2⟩ _
  · intro iss hmem
    rw [hissues] at hmem
    rcases List.mem_map.mp hmem with ⟨w, _, hw⟩
    rw [← hw]
  · intro t
    unfold spellingCandidates
    rw [List.mem_filterMap]
    constructor
    · rintro ⟨u, hu, hfu⟩
      by_cases hc : pyIsAlpha u && !hasUpper u
      · rw [if_pos hc, Option.some_inj] at hfu
        obtain ⟨ha, hn⟩ := Bool.and_eq_true_iff.mp hc
        exact ⟨u, hu, ha, by simpa using hn, hfu.symm⟩
      · rw [if_neg hc] at hfu
        exact absurd hfu (by simp)
    · rintro ⟨u, hu, ha, hn, ht⟩
      refine ⟨u, hu, ?_⟩
      rw [if_pos (by simp [ha, hn]), ht]

/-! ## Claim C7: duplicate sentences -/

/-- Filtering the zip of a list with its own map processes each element
with its image. -/
theorem zip_map_filterMap {α β γ : Type} (g : α → β) (f : α × β → Option γ)
    (l : List α) :
    (l.zip (l.map g)).filterMap f = l.filterMap fun s => f (s, g s) := by
  induction l with
  | nil => rfl
  | cons s l' ih => simp [List.filterMap_cons, ih]

/-- Deduplicating after the key-dependent filter equals filtering after
deduplicating: the single spec-side pass. -/
theorem dedupFirst_eq_go (cnt : List Char → Nat) (maxd : Nat)
    (ss : List (List Char)) :
    ∀ (seen1 seen2 : List (List Char)),
      (∀ k, (!k.isEmpty && maxd < cnt k) = true → (k ∈ seen1 ↔ k ∈ seen2)) →
      dedupFirst seen1 (ss.filterMap fun s =>
        if !(normalize_sentence s).isEmpty ∧
            maxd < cnt (normalize_sentence s) then
          some ⟨s, cnt (normalize_sentence s)⟩ else none) =
      specDupSentencesGo cnt maxd seen2 ss := by
  induction ss with
  | nil => intro seen1 seen2 hsync; rfl
  | cons s ss' ih =>
    intro seen1 seen2 hsync
    rw [List.filterMap_cons, specDupSentencesGo]
    by_cases hpass : !(normalize_sentence s).isEmpty ∧
        maxd < cnt (normalize_sentence s)
    · rw [if_pos hpass]
      have hpassb : (!(normalize_sentence s).isEmpty &&
          maxd < cnt (normalize_sentence s)) = true := by
        simp [hpass.1, hpass.2]
      rw [dedupFirst]
      by_cases hseen : normalize_sentence s ∈ seen1
      · rw [if_pos hseen,
          if_pos ((hsync (normalize_sentence s) hpassb).mp hseen)]
        exact ih seen1 seen2 hsync
      · rw [if_neg hseen,
          if_neg (fun hc => hseen
            ((hsync (normalize_sentence s) hpassb).mpr hc)),
          if_pos hpassb]
        show (⟨s, cnt (normalize_sentence s)⟩ : DupSentence) :: _ = _ :: _
        refine congrArg _ ?_
        apply ih
        intro k hk
        constructor
        · intro hmem
          rcases List.mem_cons.mp hmem with h | h
          · exact List.mem_cons.mpr (Or.inl h)
          · exact List.mem_cons.mpr (Or.inr ((hsync k hk).mp h))
        · intro hmem
          rcases List.mem_cons.mp hmem with h | h
          · exact List.mem_cons.mpr (Or.inl h)
          · exact List.mem_cons.mpr (Or.inr ((hsync k hk).mpr h))
    · rw [if_neg hpass]
      have hpassb : (!(normalize_sentence s).isEmpty &&
          maxd < cnt (normalize_sentence s)) = false := by
        rcases Decidable.not_and_iff_or_not.mp hpass with h | h
        · simp [Bool.eq_false_iff.mpr h]
        · simp [Nat.not_lt.mp h]
      by_cases hseen : normalize_sentence s ∈ seen2
      · rw [if_pos hseen]
        exact ih seen1 seen2 hsync
      · rw [if_neg hseen, if_neg (by rw [hpassb]; simp)]
        apply ih
        intro k hk
        have hkn : k ≠ normalize_sentence s := by
          intro hc
          rw [hc, hpassb] at hk
          exact Bool.false_ne_true hk
        rw [hsync k hk]
        constructor
        · intro hmem
          exact List.mem_cons.mpr (Or.inr hmem)
        · intro hmem
          rcases List.mem_cons.mp hmem with h | h
          · exact absurd h hkn
          · exact h

/-- Counterexample to claim C7 as stated: in "! !" with threshold 0, the
sentence "!" has a normalized form whose total occurrence count (2) exceeds
the threshold, yet the code reports no finding, because it skips sentences
whose normalized form is empty. -/
theorem claim_C7_counterexample :
    "!".data ∈ split_sentences ("! !".data) ∧
    0 < ((split_sentences ("! !".data)).map normalize_sentence).count
      (normalize_sentence ("!".data)) ∧
    (analyze_repetition ("! !".data) 0).duplicate_sentences = [] := by
  decide

/-- Claim C7, amended: a sentence produces a duplicate-sentence finding
exactly when its normalized form is nonempty and that form's total
occurrence count exceeds the threshold; findings carry the original text
and total count, are deduplicated by normalized form keeping the first
occurrence, and appear in order of first appearance (the code equals the
spec-side single pass `specDupSentences`); "Stop. Stop. Go." at threshold 1
yields exactly one finding for "Stop." with count 2 and "Stop. Go." yields
none. -/
theorem claim_C7_amended (text : List Char) (maxd : Nat) :
    (analyze_repetition text maxd).duplicate_sentences =
      specDupSentences text maxd ∧
    (analyze_repetition ("Stop. Stop. Go.".data) 1).duplicate_sentences =
      [⟨"Stop.".data, 2⟩] ∧
    (analyze_repetition ("Stop. Go.".data) 1).duplicate_sentences = [] := by
  refine ⟨?_, by decide, by decide⟩
  have himpl : (analyze_repetition text maxd).duplicate_sentences =
      dedupFirst [] (((split_sentences text).zip
        ((split_sentences text).map normalize_sentence)).filterMap fun p =>
        if !p.2.isEmpty && maxd <
            ((((split_sentences text).map normalize_sentence).filter
              fun x => !x.isEmpty).count p.2) then
          some (⟨p.1, (((split_sentences text).map normalize_sentence).filter
            fun x => !x.isEmpty).count p.2⟩ : DupSentence)
        else none) := rfl
  have hspec : specDupSentences text maxd =
      specDupSentencesGo (fun n =>
        (((split_sentences text).map normalize_sentence).filter
          fun x => !x.isEmpty).count n) maxd [] (split_sentences text) := rfl
  rw [himpl, hspec, zip_map_filterMap]
  have hfun : (fun s =>
      if !(normalize_sentence s).isEmpty && maxd <
          ((((split_sentences text).map normalize_sentence).filter
            fun x => !x.isEmpty).count (normalize_sentence s)) then
        some (⟨s, (((split_sentences text).map normalize_sentence).filter
          fun x => !x.isEmpty).count (normalize_sentence s)⟩ : DupSentence)
      else none) =
      fun s =>
      if !(normalize_sentence s).isEmpty ∧ maxd <
          ((((split_sentences text).map normalize_sentence).filter
            fun x => !x.isEmpty).count (normalize_sentence s)) then
        some (⟨s, (((split_sentences text).map normalize_sentence).filter
          fun x => !x.isEmpty).count (normalize_sentence s)⟩ : DupSentence)
      else none := by
    funext s
    by_cases h : !(normalize_sentence s).isEmpty ∧ maxd <
        ((((split_sentences text).map normalize_sentence).filter
          fun x => !x.isEmpty).count (normalize_sentence s))
    · rw [if_pos (Bool.and_eq_true_iff.mpr ⟨h.1, decide_eq_true h.2⟩),
        if_pos h]
    · rw [if_neg ?hb, if_neg h]
      case hb =>
        intro hc
        obtain ⟨h1, h2⟩ := Bool.and_eq_true_iff.mp hc
        exact h ⟨h1, of_decide_eq_true h2⟩
  show dedupFirst [] ((split_sentences text).filterMap fun s =>
      if !(normalize_sentence s).isEmpty && maxd <
          ((((split_sentences text).map normalize_sentence).filter
            fun x => !x.isEmpty).count (normalize_sentence s)) then
        some (⟨s, (((split_sentences text).map normalize_sentence).filter
          fun x => !x.isEmpty).count (normalize_sentence s)⟩ : DupSentence)
      else none) = _
  rw [hfun]
  exact dedupFirst_eq_go (fun n =>
      (((split_sentences text).map normalize_sentence).filter
        fun x => !x.isEmpty).count n) maxd (split_sentences text) [] []
    (fun k _ => Iff.rfl)

/-! ## Claim C1: segmentation sharing across analyses -/

/-- A letter is a word character. -/
theorem letter_wordChar {c : Char} (h : letterChar c = true) :
    wordChar c = true := by
  unfold letterChar at h
  simp [wordChar, h]

/-- A whitespace character is neither a hyphen nor an apostrophe. -/
theorem pyWs_not_sep {c : Char} (h : pyWs c = true) :
    (c = '-' || c = apost) = false := by
  simp only [pyWs, Bool.or_eq_true, decide_eq_true_eq] at h
  rcases h with ((((h | h) | h) | h) | h) | h <;> subst h <;> decide

/-- On text made only of ASCII letters and whitespace, the spelling
checker's `\b\w+\b` scanner and the segmenter's tokenizer agree. -/
theorem runs_eq_tok_of_letters_ws (l : List Char) :
    ∀ acc, (∀ c ∈ l, letterChar c = true ∨ pyWs c = true) →
      runsAux wordChar acc l = tokAux acc l := by
  induction l with
  | nil => intro acc h; rfl
  | cons c cs ih =>
    intro acc h
    rcases h c (by simp) with hc | hc
    · rw [runsAux, tokAux, if_pos (letter_wordChar hc), if_pos hc]
      exact ih _ fun d hd => h d (by simp [hd])
    · rw [runsAux, tokAux]
      rw [if_neg (by simp [pyWs_not_wordChar hc]),
        if_neg (by simp [pyWs_not_letterChar hc]),
        if_neg (by simp [pyWs_not_sep hc])]
      rw [ih [] fun d hd => h d (by simp [hd])]

/-- Counterexample to claim C1 as stated: on "abc123" the spelling checker
considers no word at all (the single `\b\w+\b` token "abc123" is not purely
alphabetic), while `tokenize` produces the alphabetic token "abc".  The two
word sets differ, so the spelling checker does not segment with the shared
tokenizer. -/
theorem claim_C1_counterexample :
    spellingCandidates ("abc123".data) = [] ∧
    "abc".data ∈ (tokenize ("abc123".data)).filter pyIsAlpha ∧
    "abc".data ∉ spellingCandidates ("abc123".data) := by
  decide

/-- Claim C1, amended: the style and repetition analyses segment with the
shared `split_sentences`/`tokenize` (long sentences count words by
`tokenize` over `split_sentences`; the duplicate-word scan runs over the
case-folded `tokenize` stream), but the spelling checker tokenizes
independently with the `\b\w+\b` scanner; the two tokenizers agree on text
made only of ASCII letters and whitespace. -/
theorem claim_C1_amended (text : List Char) (thr maxd : Nat) :
    (analyze_style text thr).long_sentences =
      (split_sentences text).enum.filterMap (fun p =>
        if thr < (tokenize p.2).length then
          some ⟨p.1, (tokenize p.2).length, p.2⟩ else none) ∧
    (analyze_repetition text maxd).duplicate_words =
      List.insertionSort dupWordLe
        ((dupScan [] none 0 ((tokenize text).map lowerL)).filterMap fun p =>
          if p.2.isEmpty then none else some ⟨p.1, p.2⟩) ∧
    ((∀ c ∈ text, letterChar c = true ∨ pyWs c = true) →
      wordTokens text = tokenize text) :=
  ⟨rfl, rfl, fun h => runs_eq_tok_of_letters_ws text [] h⟩

/-- Witness for the amended claim C1 at the concrete input "the cat". -/
theorem claim_C1_witness :
    (∀ c ∈ ("the cat".data), letterChar c = true ∨ pyWs c = true) ∧
    wordTokens ("the cat".data) = tokenize ("the cat".data) :=
  ⟨by decide, (claim_C1_amended ("the cat".data) 0 0).2.2 (by decide)⟩
